import Mathlib

/-!
Verification of the retrieval core of the security-chatbot repository
(`rag_pipeline.py`, class `SecurityRAGPipeline`).

The embedding models:
* documents and their metadata (`Doc`, `MetaMap`);
* the chunker configured in `__init__` (chunk_size 800, chunk_overlap 100);
  its implementation lives in a third-party library, so it is modelled
  from the specification (see `splitChunksAux`);
* the FAISS `IndexFlatL2` index as the list of stored vectors, with exact
  squared-Euclidean nearest-neighbour search (`faissSearch`), including the
  library behaviour of padding missing results with index `-1` when `k`
  exceeds the number of stored vectors;
* the pipeline state (`RAGState`) and its operations
  `build_knowledge_base`, `retrieve`, `add_custom_document`,
  `save_index`, `load_index`; fallible paths return `Except`.

Machine floats are modelled as rationals; `fltMax` stands for the value
FAISS reports as the distance of a padded (missing) search result.
-/

/-- A metadata value: the Python dictionaries hold strings and numbers. -/
inductive MVal where
  | s (v : String)
  | q (v : ℚ)
deriving DecidableEq

/-- A metadata mapping, as a list of key/value pairs. -/
abbrev MetaMap := List (String × MVal)

/-- A document: `page_content` plus a metadata mapping
(langchain `Document`). Content is a character sequence, matching the
character-based chunking of the pipeline. -/
structure Doc where
  page_content : List Char
  metadata : MetaMap
deriving DecidableEq

/-- `chunk_size` configured in `SecurityRAGPipeline.__init__`. -/
def chunk_size : ℕ := 800

/-- `chunk_overlap` configured in `SecurityRAGPipeline.__init__`. -/
def chunk_overlap : ℕ := 100

/-- Modelled from the spec: the chunker implementation
(`RecursiveCharacterTextSplitter`) is a third-party library whose code is
not part of this repository; only its configuration (`chunk_size = 800`,
`chunk_overlap = 100`) is. Following the spec, content is split by
character count into segments of at most `chunk_size` characters, with
`chunk_overlap` characters shared between consecutive chunks, so each new
chunk starts `chunk_size - chunk_overlap` characters after the previous
one; a document not longer than `chunk_size` yields one chunk equal to the
whole content. Fuel bounds the recursion; `s.length` fuel always
suffices. -/
def splitChunksAux : ℕ → List Char → List (List Char)
  | 0, s => [s]
  | fuel + 1, s =>
    if s.length ≤ chunk_size then [s]
    else s.take chunk_size :: splitChunksAux fuel (s.drop (chunk_size - chunk_overlap))

/-- Split one content string into chunks (spec-modelled chunker). -/
def splitContent (s : List Char) : List (List Char) :=
  splitChunksAux s.length s

/-- All chunks of one document, each carrying the parent metadata verbatim. -/
def docChunks (d : Doc) : List Doc :=
  (splitContent d.page_content).map (fun c => ⟨c, d.metadata⟩)

/-- `text_splitter.split_documents`: chunk every document, in order. -/
def splitDocuments : List Doc → List Doc
  | [] => []
  | d :: rest => docChunks d ++ splitDocuments rest

/-- An embedding vector (float components modelled as rationals). -/
abbrev Vec := List ℚ

/-- Squared Euclidean distance, the metric of `faiss.IndexFlatL2`. -/
def sqDist (u v : Vec) : ℚ :=
  ((u.zip v).map (fun p => (p.1 - p.2) ^ 2)).sum

/-- The exact value of the 32-bit float maximum, which FAISS reports as the
distance of a padded (missing) result when `k` exceeds the index size. -/
def fltMax : ℚ := 2 ^ 128 - 2 ^ 104

/-- Comparison used by the index search: ascending distance, ties broken by
lower insertion position. -/
abbrev searchLE (a b : ℤ × ℚ) : Prop :=
  a.2 < b.2 ∨ (a.2 = b.2 ∧ a.1 ≤ b.1)

instance : IsTrans (ℤ × ℚ) searchLE where
  trans a b c hab hbc := by
    rcases hab with h1 | ⟨h1, h1'⟩ <;> rcases hbc with h2 | ⟨h2, h2'⟩
    · exact Or.inl (h1.trans h2)
    · exact Or.inl (h2 ▸ h1)
    · exact Or.inl (h1 ▸ h2)
    · exact Or.inr ⟨h1.trans h2, h1'.trans h2'⟩

instance : IsTotal (ℤ × ℚ) searchLE where
  total a b := by
    rcases lt_trichotomy a.2 b.2 with h | h | h
    · exact Or.inl (Or.inl h)
    · rcases le_total a.1 b.1 with h' | h'
      · exact Or.inl (Or.inr ⟨h, h'⟩)
      · exact Or.inr (Or.inr ⟨h.symm, h'⟩)
    · exact Or.inr (Or.inl h)

/-- Score every stored vector against the query, tagging each with its
insertion position (starting at `i`). -/
def scoreAux (q : Vec) : ℕ → List Vec → List (ℤ × ℚ)
  | _, [] => []
  | i, v :: rest => ((i : ℤ), sqDist q v) :: scoreAux q (i + 1) rest

/-- `faiss.IndexFlatL2.search`: exact nearest-neighbour search returning
`k` (position, distance) pairs in ascending distance order, ties broken by
lower position; when `k` exceeds the number of stored vectors the missing
entries are padded with position `-1` and distance `fltMax`. -/
def faissSearch (db : List Vec) (q : Vec) (k : ℕ) : List (ℤ × ℚ) :=
  (List.insertionSort searchLE (scoreAux q 0 db)).take k ++
    List.replicate (k - db.length) (-1, fltMax)

/-- The in-memory state of `SecurityRAGPipeline`: the FAISS index
(`none` before any build), the chunk documents and the parallel metadata
list. -/
structure RAGState where
  index : Option (List Vec)
  documents : List Doc
  metadata : List MetaMap
deriving DecidableEq

/-- The state right after `__init__`: no index, empty parallel lists. -/
def initState : RAGState := ⟨none, [], []⟩

/-- A CVE record as consumed by `build_knowledge_base`. -/
structure CVERecord where
  full_text : List Char
  cve_id : String
  severity : String
  cvss_score : ℚ
  published_date : String
deriving DecidableEq

/-- An infrastructure record; `name` and `asset_type` are optional, read
with `.get(key, 'Unknown')`. -/
structure InfraRecord where
  name : Option String
  asset_type : Option String
  description : List Char
deriving DecidableEq

/-- The document built from a CVE record in `build_knowledge_base`. -/
def cveToDoc (c : CVERecord) : Doc :=
  ⟨c.full_text,
    [("source", MVal.s "cve"), ("cve_id", MVal.s c.cve_id),
     ("severity", MVal.s c.severity), ("cvss_score", MVal.q c.cvss_score),
     ("published_date", MVal.s c.published_date)]⟩

/-- The document built from an infrastructure record. -/
def infraToDoc (i : InfraRecord) : Doc :=
  ⟨i.description,
    [("source", MVal.s "infrastructure"),
     ("asset_name", MVal.s (i.name.getD "Unknown")),
     ("asset_type", MVal.s (i.asset_type.getD "Unknown"))]⟩

/-- `SecurityRAGPipeline.build_knowledge_base`: normalize the records,
chunk them, embed every chunk, build a fresh index and replace the
documents and metadata lists wholesale. The previous state is discarded. -/
def build_knowledge_base (emb : List Char → Vec) (s : RAGState)
    (cve_data : List CVERecord) (infrastructure_data : Option (List InfraRecord)) :
    RAGState :=
  let documents := cve_data.map cveToDoc ++
    (match infrastructure_data with
     | some l => l.map infraToDoc
     | none => [])
  let split_docs := splitDocuments documents
  { index := some (split_docs.map (fun d => emb d.page_content)),
    documents := split_docs,
    metadata := split_docs.map (·.metadata) }

/-- Python list indexing: negative indices wrap around from the end;
`none` models an `IndexError`. -/
def pyGet {α : Type} (l : List α) (i : ℤ) : Option α :=
  if 0 ≤ i then l[i.toNat]?
  else if 0 ≤ i + l.length then l[(i + l.length).toNat]?
  else none

/-- One retrieval result: content, metadata and the similarity score
`1 / (1 + distance)`. -/
structure RetrievalResult where
  content : List Char
  metadata : MetaMap
  relevance_score : ℚ
deriving DecidableEq

/-- The body of the result loop in `retrieve`: the guard
`if idx < len(self.documents)` admits the entry, then the documents and
metadata lists are indexed with the raw (possibly negative) position;
an out-of-range access is an `IndexError`. -/
def hydrate (s : RAGState) (p : ℤ × ℚ) : Except String (Option RetrievalResult) :=
  if p.1 < (s.documents.length : ℤ) then
    match pyGet s.documents p.1, pyGet s.metadata p.1 with
    | some d, some m => .ok (some ⟨d.page_content, m, 1 / (1 + p.2)⟩)
    | _, _ => .error "IndexError"
  else .ok (none)

/-- One step of the result-collection loop of `retrieve`. -/
def retrieveStep (s : RAGState) (acc : List RetrievalResult) (p : ℤ × ℚ) :
    Except String (List RetrievalResult) :=
  match hydrate s p with
  | .ok (some r) => .ok (acc ++ [r])
  | .ok none => .ok acc
  | .error e => .error e

/-- `SecurityRAGPipeline.retrieve`: return `[]` when no index exists,
otherwise search the index with the embedded query and hydrate every hit
whose position passes the `idx < len(self.documents)` guard. -/
def retrieve (emb : List Char → Vec) (s : RAGState) (query : List Char)
    (top_k : ℕ) : Except String (List RetrievalResult) :=
  match s.index with
  | none => .ok []
  | some db => (faissSearch db (emb query) top_k).foldlM (retrieveStep s) []

/-- `SecurityRAGPipeline.add_custom_document`: before any build it logs a
warning and returns normally without touching state; otherwise it chunks
and embeds the new document and extends the index and both parallel lists. -/
def add_custom_document (emb : List Char → Vec) (s : RAGState)
    (text : List Char) (metadata : MetaMap) : Except String RAGState :=
  match s.index with
  | none => .ok s
  | some db =>
    let split_docs := splitDocuments [⟨text, metadata⟩]
    let embeddings := split_docs.map (fun d => emb d.page_content)
    .ok { index := some (db ++ embeddings),
          documents := s.documents ++ split_docs,
          metadata := s.metadata ++ split_docs.map (·.metadata) }

/-- The persisted directory: `faiss_index.bin` and `documents.pkl`,
each possibly absent. -/
structure Disk where
  faiss_index : Option (List Vec)
  documents_pkl : Option (List Doc × List MetaMap)
deriving DecidableEq

/-- A directory with neither file present. -/
def emptyDisk : Disk := ⟨none, none⟩

/-- `SecurityRAGPipeline.save_index`: `faiss.write_index(self.index, ...)`
has no guard for an unbuilt store, so with `self.index = None` the call
fails; otherwise both files are written. -/
def save_index (s : RAGState) (_disk : Disk) : Except String Disk :=
  match s.index with
  | none => .error "write_index: null index"
  | some db => .ok ⟨some db, some (s.documents, s.metadata)⟩

/-- `SecurityRAGPipeline.load_index`: when either file is absent the call
returns `False` leaving state untouched; when both are present their
payloads are installed wholesale, with no consistency check between the
index size and the documents and metadata lengths. -/
def load_index (disk : Disk) (s : RAGState) : Bool × RAGState :=
  match disk.faiss_index, disk.documents_pkl with
  | some db, some dm => (true, ⟨some db, dm.1, dm.2⟩)
  | _, _ => (false, s)

/-- The vectors held by the index (empty when no index exists). -/
def indexVecs (s : RAGState) : List Vec := s.index.getD []

/-- The parallel-array invariant of the store: the documents list, the
metadata list and the index all have the same size. -/
def StoreInvariant (s : RAGState) : Prop :=
  s.documents.length = (indexVecs s).length ∧
  s.metadata.length = (indexVecs s).length

instance (s : RAGState) : Decidable (StoreInvariant s) := by
  unfold StoreInvariant; infer_instance

/-! ### Concrete fixtures used by witnesses and counterexamples -/

/-- An embedder that maps content to the one-component vector holding its
length: deterministic, as the spec requires. -/
def embLen : List Char → Vec := fun c => [(c.length : ℚ)]

/-- A one-character CVE record. -/
def cveA : CVERecord := ⟨['a'], "CVE-2024-0001", "HIGH", 17 / 2, "2024-01-01"⟩

/-- A two-character CVE record. -/
def cveB : CVERecord := ⟨['b', 'b'], "CVE-2024-0002", "LOW", 2, "2024-01-02"⟩

/-- A store built from two short records: its index holds exactly two
vectors. -/
def twoStore : RAGState := build_knowledge_base embLen initState [cveA, cveB] none

/-- A persisted directory whose two files are mutually inconsistent: the
index holds one vector while the pickle holds two documents and two
metadata entries. -/
def corruptDisk : Disk :=
  ⟨some [[1]], some ([⟨['x'], []⟩, ⟨['y'], []⟩], [[], []])⟩

/-- The state `load_index` installs from `corruptDisk`. -/
def hydratedState : RAGState :=
  ⟨some [[1]], [⟨['x'], []⟩, ⟨['y'], []⟩], [[], []]⟩

/-- A custom-document fixture used by the invariant witness. -/
def addedStore : RAGState :=
  { index := some ([[1], [2]] ++ (splitDocuments [⟨['h', 'i'], []⟩]).map
      (fun d => embLen d.page_content)),
    documents := twoStore.documents ++ splitDocuments [⟨['h', 'i'], []⟩],
    metadata := twoStore.metadata ++ (splitDocuments [⟨['h', 'i'], []⟩]).map (·.metadata) }

/-- A document shorter than `chunk_size`. -/
def dSmall : Doc := ⟨['h', 'i'], [("source", MVal.s "cve")]⟩

/-- Two chunks overlap (in the spec's sense) when the last
`chunk_overlap` characters of the first are exactly the first
`chunk_overlap` characters of the second. -/
def ovl (a b : List Char) : Prop :=
  a.drop (chunk_size - chunk_overlap) = b.take chunk_overlap ∧
  (a.drop (chunk_size - chunk_overlap)).length = chunk_overlap

instance (a b : List Char) : Decidable (ovl a b) := by
  unfold ovl; infer_instance

/-- A 900-character document, longer than `chunk_size`. -/
def doc900 : Doc := ⟨List.replicate 900 'a', []⟩

/-- The result an in-range hit hydrates to (used to state the value of the
retrieval loop). -/
def hydval (s : RAGState) (p : ℤ × ℚ) : RetrievalResult :=
  match hydrate s p with
  | .ok (some r) => r
  | _ => ⟨[], [], 0⟩

/-- A built store holding one vector, used to instantiate the ordering
theorem. -/
def oneStore : RAGState := ⟨some [[1]], [⟨['a'], []⟩], [[]]⟩

lemma splitChunksAux_short (fuel : ℕ) (s : List Char) (h : s.length ≤ chunk_size) :
    splitChunksAux fuel s = [s] := by
  cases fuel with
  | zero => rfl
  | succ n => simp [splitChunksAux, h]

lemma head_splitChunksAux (fuel : ℕ) (s : List Char) (h : s.length ≤ fuel) :
    (splitChunksAux fuel s).head? = some (s.take chunk_size) := by
  cases fuel with
  | zero =>
    have hs : s = [] := List.length_eq_zero.mp (Nat.le_zero.mp h)
    subst hs
    rfl
  | succ n =>
    by_cases hc : s.length ≤ chunk_size
    · simp [splitChunksAux, hc, List.take_of_length_le hc]
    · simp [splitChunksAux, hc]

lemma chain_splitChunksAux (fuel : ℕ) : ∀ s : List Char, s.length ≤ fuel →
    List.Chain' ovl (splitChunksAux fuel s) := by
  induction fuel with
  | zero => intro s _; exact List.chain'_singleton s
  | succ n ih =>
    intro s h
    by_cases hc : s.length ≤ chunk_size
    · simp [splitChunksAux, hc]
    · rw [splitChunksAux, if_neg hc]
      push_neg at hc
      have hlen : (s.drop (chunk_size - chunk_overlap)).length ≤ n := by
        rw [List.length_drop]
        simp only [chunk_size, chunk_overlap] at hc ⊢
        omega
      rw [List.chain'_cons']
      refine ⟨?_, ih _ hlen⟩
      intro y hy
      rw [head_splitChunksAux _ _ hlen] at hy
      rw [Option.mem_def] at hy
      injection hy with hy
      subst hy
      constructor
      · rw [List.drop_take, List.take_take]
        norm_num [chunk_size, chunk_overlap]
      · rw [List.length_drop, List.length_take]
        simp only [chunk_size, chunk_overlap] at hc ⊢
        omega

lemma sqDist_nonneg (u v : Vec) : 0 ≤ sqDist u v := by
  apply List.sum_nonneg
  intro x hx
  rw [List.mem_map] at hx
  obtain ⟨p, -, hp⟩ := hx
  rw [← hp]
  positivity

lemma sqDist_self (v : Vec) : sqDist v v = 0 := by
  induction v with
  | nil => rfl
  | cons a t ih =>
    unfold sqDist at ih ⊢
    rw [List.zip_cons_cons, List.map_cons, List.sum_cons, ih]
    ring

lemma fltMax_pos : 0 < fltMax := by norm_num [fltMax]

lemma scoreAux_length (q : Vec) : ∀ (i : ℕ) (l : List Vec),
    (scoreAux q i l).length = l.length := by
  intro i l
  induction l generalizing i with
  | nil => rfl
  | cons v t ih => simp [scoreAux, ih]

lemma scoreAux_mem (q : Vec) : ∀ (i : ℕ) (l : List Vec) (p : ℤ × ℚ),
    p ∈ scoreAux q i l →
    ∃ v ∈ l, ∃ j : ℕ, p = ((j : ℤ), sqDist q v) ∧ i ≤ j ∧ j < i + l.length := by
  intro i l
  induction l generalizing i with
  | nil => intro p hp; cases hp
  | cons v t ih =>
    intro p hp
    rw [scoreAux, List.mem_cons] at hp
    rcases hp with hp | hp
    · exact ⟨v, List.mem_cons_self .., i, hp, le_refl i, by simp⟩
    · obtain ⟨w, hw, j, hj, hij, hjl⟩ := ih (i + 1) p hp
      exact ⟨w, List.mem_cons_of_mem _ hw, j, hj, by omega, by simp; omega⟩

lemma mem_faissSearch (db : List Vec) (q : Vec) (k : ℕ) (p : ℤ × ℚ)
    (hp : p ∈ faissSearch db q k) :
    (∃ v ∈ db, ∃ j : ℕ, p = ((j : ℤ), sqDist q v) ∧ j < db.length) ∨
    p = (-1, fltMax) := by
  unfold faissSearch at hp
  rw [List.mem_append] at hp
  rcases hp with hp | hp
  · left
    have hp' := List.mem_of_mem_take hp
    rw [List.mem_insertionSort] at hp'
    obtain ⟨v, hv, j, hj, -, hjl⟩ := scoreAux_mem q 0 db p hp'
    exact ⟨v, hv, j, hj, by omega⟩
  · right
    exact (List.mem_replicate.mp hp).2

lemma hits_sorted (db : List Vec) (q : Vec) (k : ℕ)
    (hbound : ∀ v ∈ db, sqDist q v < fltMax) :
    List.Sorted searchLE (faissSearch db q k) := by
  unfold faissSearch
  apply List.pairwise_append.mpr
  refine ⟨(List.sorted_insertionSort searchLE _).sublist (List.take_sublist ..), ?_, ?_⟩
  · exact List.pairwise_replicate.mpr (Or.inr (Or.inr ⟨rfl, le_refl _⟩))
  · intro a ha b hb
    rw [List.mem_replicate] at hb
    rw [hb.2]
    have ha' := List.mem_of_mem_take ha
    rw [List.mem_insertionSort] at ha'
    obtain ⟨v, hv, j, hj, -, -⟩ := scoreAux_mem q 0 db a ha'
    rw [hj]
    exact Or.inl (by simpa using hbound v hv)

lemma pyGet_nat {α : Type} (l : List α) (j : ℕ) (h : j < l.length) :
    pyGet l (j : ℤ) = l[j]? := by
  unfold pyGet
  rw [if_pos (Int.natCast_nonneg j), Int.toNat_natCast]

lemma pyGet_neg_one {α : Type} (l : List α) (h : 0 < l.length) :
    ∃ a, pyGet l (-1) = some a := by
  unfold pyGet
  rw [if_neg (by norm_num), if_pos (by omega)]
  have hlt : ((-1 : ℤ) + l.length).toNat < l.length := by omega
  exact ⟨_, List.getElem?_eq_getElem hlt⟩

lemma hydrate_ok_genuine (s : RAGState) (db : List Vec) (d : ℚ) (j : ℕ)
    (hdoc : s.documents.length = db.length) (hmeta : s.metadata.length = db.length)
    (hj : j < db.length) :
    ∃ r, hydrate s ((j : ℤ), d) = .ok (some r) ∧ r.relevance_score = 1 / (1 + d) := by
  have hjd : j < s.documents.length := by omega
  have hjm : j < s.metadata.length := by omega
  unfold hydrate
  dsimp only
  rw [if_pos (show ((j : ℤ)) < (s.documents.length : ℤ) by exact_mod_cast hjd)]
  rw [pyGet_nat _ _ hjd, pyGet_nat _ _ hjm]
  rw [List.getElem?_eq_getElem hjd, List.getElem?_eq_getElem hjm]
  exact ⟨_, rfl, rfl⟩

lemma hydrate_ok_pad (s : RAGState) (db : List Vec) (d : ℚ)
    (hdoc : s.documents.length = db.length) (hmeta : s.metadata.length = db.length)
    (hne : 0 < db.length) :
    ∃ r, hydrate s (-1, d) = .ok (some r) ∧ r.relevance_score = 1 / (1 + d) := by
  obtain ⟨a, ha⟩ := pyGet_neg_one s.documents (by omega)
  obtain ⟨m, hm⟩ := pyGet_neg_one s.metadata (by omega)
  unfold hydrate
  dsimp only
  rw [if_pos (show (-1 : ℤ) < (s.documents.length : ℤ) by omega)]
  rw [ha, hm]
  exact ⟨_, rfl, rfl⟩

lemma retrieveStep_ok (s : RAGState) (acc : List RetrievalResult) (p : ℤ × ℚ)
    (r : RetrievalResult) (hr : hydrate s p = .ok (some r)) :
    retrieveStep s acc p = .ok (acc ++ [hydval s p]) := by
  unfold retrieveStep hydval
  rw [hr]

lemma foldlM_retrieveStep (s : RAGState) :
    ∀ (l : List (ℤ × ℚ)) (acc : List RetrievalResult),
    (∀ p ∈ l, ∃ r, hydrate s p = .ok (some r)) →
    l.foldlM (retrieveStep s) acc = .ok (acc ++ l.map (hydval s)) := by
  intro l
  induction l with
  | nil => intro acc _; simp only [List.foldlM, List.map_nil, List.append_nil]; rfl
  | cons p t ih =>
    intro acc hall
    obtain ⟨r, hr⟩ := hall p (List.mem_cons_self ..)
    rw [List.foldlM_cons, retrieveStep_ok s acc p r hr]
    show (Except.ok (acc ++ [hydval s p]) >>= fun b => t.foldlM (retrieveStep s) b) = _
    rw [show ∀ (x : List RetrievalResult) (f : List RetrievalResult → Except String (List RetrievalResult)), (Except.ok x >>= f) = f x from fun _ _ => rfl]
    rw [ih _ (fun p hp => hall p (List.mem_cons_of_mem _ hp))]
    simp

lemma retrieve_ok (emb : List Char → Vec) (s : RAGState) (db : List Vec)
    (q : List Char) (k : ℕ) (hidx : s.index = some db)
    (hall : ∀ p ∈ faissSearch db (emb q) k, ∃ r, hydrate s p = .ok (some r)) :
    retrieve emb s q k = .ok ((faissSearch db (emb q) k).map (hydval s)) := by
  unfold retrieve
  rw [hidx]
  show (faissSearch db (emb q) k).foldlM (retrieveStep s) [] = _
  rw [foldlM_retrieveStep s _ [] hall]
  rw [List.nil_append]

/-- C2: for every query string and every top_k, calling retrieve on a
store on which no build (and no restore) has succeeded returns the empty
sequence and never raises: the `self.index is None` guard short-circuits
before any search. -/
theorem retrieve_unbuilt_returns_empty (emb : List Char → Vec) (s : RAGState)
    (q : List Char) (k : ℕ) (h : s.index = none) :
    retrieve emb s q k = .ok [] := by
  unfold retrieve
  rw [h]

/-- C2 witness: retrieve on the freshly-constructed state with an
arbitrary query and top_k 7 returns the empty sequence. -/
theorem retrieve_unbuilt_returns_empty_witness :
    initState.index = none ∧ retrieve embLen initState ['x'] 7 = .ok [] :=
  ⟨rfl, retrieve_unbuilt_returns_empty embLen initState ['x'] 7 rfl⟩

/-- C5: round-trip fidelity of persistence. For every store on which
build succeeded, save_index followed by load_index on a fresh instance
restores exactly the original state, so retrieve gives identical results
for every query and every k. -/
theorem save_load_round_trip (emb : List Char → Vec) (s : RAGState)
    (db : List Vec) (h : s.index = some db) (fresh : RAGState) (disk : Disk)
    (q : List Char) (k : ℕ) :
    ∃ d', save_index s disk = .ok d' ∧ load_index d' fresh = (true, s) ∧
      retrieve emb (load_index d' fresh).2 q k = retrieve emb s q k := by
  refine ⟨⟨some db, some (s.documents, s.metadata)⟩, ?_, ?_, ?_⟩
  · unfold save_index; rw [h]
  · cases s with
    | mk i d m => cases h; rfl
  · cases s with
    | mk i d m => cases h; rfl

/-- C5 witness: saving the two-vector store and loading into a fresh
instance reproduces it, and retrieval results coincide. -/
theorem save_load_round_trip_witness :
    ∃ d', save_index twoStore emptyDisk = .ok d' ∧
      load_index d' initState = (true, twoStore) ∧
      retrieve embLen (load_index d' initState).2 ['a'] 5 =
        retrieve embLen twoStore ['a'] 5 :=
  save_load_round_trip embLen twoStore (twoStore.index.getD []) rfl initState emptyDisk ['a'] 5

/-- C6 (amended): when either persisted file is absent at the location,
load_index returns false and leaves the in-memory state exactly as it was.
(The original claim also covered corrupt-but-present state, which the code
does not detect; see the counterexample.) -/
theorem load_missing_files_returns_false (disk : Disk) (s : RAGState)
    (h : disk.faiss_index = none ∨ disk.documents_pkl = none) :
    load_index disk s = (false, s) := by
  rcases disk with ⟨fi, dp⟩
  rcases h with h | h
  · cases h; cases dp <;> rfl
  · cases h; cases fi <;> rfl

/-- C6 witness: loading from an empty directory returns false and
preserves the built store unchanged. -/
theorem load_missing_files_returns_false_witness :
    load_index emptyDisk twoStore = (false, twoStore) :=
  load_missing_files_returns_false emptyDisk twoStore (Or.inl rfl)

/-- C6 counterexample: a persisted directory whose index holds one
vector while the pickle holds two documents is corrupt in the claim's
sense (mismatched lengths), yet load_index returns true and installs the
inconsistent state rather than returning false and leaving state
untouched. -/
theorem load_mismatched_lengths_counterexample :
    load_index corruptDisk initState = (true, hydratedState) ∧
    hydratedState.documents.length = 2 ∧
    (indexVecs hydratedState).length = 1 ∧
    ¬ StoreInvariant hydratedState ∧
    hydratedState ≠ initState := by
  refine ⟨rfl, rfl, rfl, ?_, ?_⟩
  · intro hinv
    exact absurd hinv.1 (by decide)
  · intro h
    exact Option.noConfusion (congrArg RAGState.index h)

/-- C9 (amended): calling add_custom_document before any build is
silently ignored: the call returns normally (after logging a warning)
with the state unchanged, rather than raising a fatal error. -/
theorem add_before_build_silently_ignored (emb : List Char → Vec) (s : RAGState)
    (text : List Char) (md : MetaMap) (h : s.index = none) :
    add_custom_document emb s text md = .ok s := by
  unfold add_custom_document
  rw [h]

/-- C9 witness: adding a document to the freshly-constructed state
returns ok with the state unchanged. -/
theorem add_before_build_silently_ignored_witness :
    add_custom_document embLen initState ['h', 'i'] [] = .ok initState :=
  add_before_build_silently_ignored embLen initState ['h', 'i'] [] rfl

/-- C9 counterexample: on the unbuilt initial state,
add_custom_document returns `Except.ok` with the state unchanged — a
silent no-op, not the fatal rejection the claim asserts. -/
theorem add_before_build_counterexample :
    add_custom_document embLen initState ['h', 'i'] [] = .ok initState ∧
    initState.index = none := ⟨rfl, rfl⟩

/-- C10 (amended): persisting when nothing has been built fails:
save_index passes the null index straight to faiss.write_index, which
cannot serialize it, so the call errors instead of completing as a
defined empty-state condition. -/
theorem save_unbuilt_raises (s : RAGState) (disk : Disk) (h : s.index = none) :
    save_index s disk = .error "write_index: null index" := by
  unfold save_index
  rw [h]

/-- C10 witness: save_index on the freshly-constructed state errors. -/
theorem save_unbuilt_raises_witness :
    save_index initState emptyDisk = .error "write_index: null index" :=
  save_unbuilt_raises initState emptyDisk rfl

/-- C10 counterexample: with nothing built (index is None), save_index
errors rather than completing, contradicting the claim that persisting
with nothing built is a defined non-error condition. -/
theorem save_unbuilt_counterexample :
    save_index initState emptyDisk = .error "write_index: null index" ∧
    initState.index = none := ⟨rfl, rfl⟩

/-- C3: the parallel-array invariant (documents, metadata and index all
have equal length) holds after construction, holds after every
build_knowledge_base call, and add_custom_document extends the index,
the documents and the metadata by the same number of entries, appending
after the existing entries without disturbing them. -/
theorem parallel_arrays_invariant :
    StoreInvariant initState ∧
    (∀ (emb : List Char → Vec) (s : RAGState) (cve : List CVERecord)
      (infra : Option (List InfraRecord)),
      StoreInvariant (build_knowledge_base emb s cve infra)) ∧
    (∀ (emb : List Char → Vec) (s : RAGState) (text : List Char) (md : MetaMap)
      (s' : RAGState), StoreInvariant s →
      add_custom_document emb s text md = .ok s' →
      StoreInvariant s' ∧
      ∃ nd nm nv, s'.documents = s.documents ++ nd ∧
        s'.metadata = s.metadata ++ nm ∧
        indexVecs s' = indexVecs s ++ nv ∧
        nd.length = nv.length ∧ nm.length = nv.length) := by
  refine ⟨⟨rfl, rfl⟩, ?_, ?_⟩
  · intro emb s cve infra
    constructor <;> simp [build_knowledge_base, StoreInvariant, indexVecs]
  · intro emb s text md s' hs hadd
    cases hidx : s.index with
    | none =>
      unfold add_custom_document at hadd
      rw [hidx] at hadd
      injection hadd with h
      subst h
      exact ⟨hs, [], [], [], by simp, by simp, by simp, rfl, rfl⟩
    | some db =>
      unfold add_custom_document at hadd
      rw [hidx] at hadd
      injection hadd with h
      subst h
      obtain ⟨h1, h2⟩ := hs
      rw [indexVecs, hidx] at h1 h2
      refine ⟨⟨?_, ?_⟩, splitDocuments [⟨text, md⟩],
        (splitDocuments [⟨text, md⟩]).map (·.metadata),
        (splitDocuments [⟨text, md⟩]).map (fun d => emb d.page_content),
        rfl, rfl, by simp [indexVecs, hidx], by simp, by simp⟩
      · simp [indexVecs, h1]
      · simp [indexVecs, h2]

/-- C3 witness: appending a custom document to the built two-vector
store preserves the invariant and extends all three sequences equally. -/
theorem parallel_arrays_invariant_witness :
    StoreInvariant addedStore ∧
    ∃ nd nm nv, addedStore.documents = twoStore.documents ++ nd ∧
      addedStore.metadata = twoStore.metadata ++ nm ∧
      indexVecs addedStore = indexVecs twoStore ++ nv ∧
      nd.length = nv.length ∧ nm.length = nv.length := by
  refine parallel_arrays_invariant.2.2 embLen twoStore ['h', 'i'] [] addedStore ?_ ?_
  · exact ⟨rfl, rfl⟩
  · rfl

/-- C8: splitting a single document whose content is shorter than
chunk_size yields exactly one chunk whose content equals the original
document's content, with the parent metadata copied verbatim. -/
theorem short_doc_single_chunk (d : Doc) (h : d.page_content.length < chunk_size) :
    splitDocuments [d] = [Doc.mk d.page_content d.metadata] := by
  unfold splitDocuments splitDocuments
  simp [docChunks, splitContent, splitChunksAux_short _ _ (le_of_lt h)]

/-- C8 witness: a two-character document yields exactly one chunk equal
to itself. -/
theorem short_doc_single_chunk_witness :
    dSmall.page_content.length < chunk_size ∧
    splitDocuments [dSmall] = [Doc.mk dSmall.page_content dSmall.metadata] :=
  ⟨by decide, short_doc_single_chunk dSmall (by decide)⟩

/-- C7: for every document whose content is longer than chunk_size,
every pair of adjacent chunks produced from it overlaps by exactly
chunk_overlap characters: the last chunk_overlap characters of each chunk
are precisely the first chunk_overlap characters of the next. -/
theorem adjacent_chunks_overlap_exact (d : Doc) (h : chunk_size < d.page_content.length) :
    List.Chain' (fun a b : Doc => ovl a.page_content b.page_content) (docChunks d) := by
  unfold docChunks
  rw [List.chain'_map]
  exact chain_splitChunksAux _ _ le_rfl

set_option maxRecDepth 8000 in
/-- C7 witness: a 900-character document is longer than chunk_size and
its adjacent chunks overlap by exactly chunk_overlap characters. -/
theorem adjacent_chunks_overlap_exact_witness :
    chunk_size < doc900.page_content.length ∧
    List.Chain' (fun a b : Doc => ovl a.page_content b.page_content) (docChunks doc900) :=
  ⟨by show chunk_size < (List.replicate 900 'a').length
      rw [List.length_replicate]
      norm_num [chunk_size],
   adjacent_chunks_overlap_exact doc900 (by
      show chunk_size < (List.replicate 900 'a').length
      rw [List.length_replicate]
      norm_num [chunk_size])⟩

/-- C4: on a built, non-empty store whose parallel arrays match the
index, retrieve succeeds and returns results ordered by descending
relevance_score; the underlying search output is ordered by ascending
distance with ties broken by lower insertion position (the `searchLE`
order); every returned relevance_score is 1 / (1 + distance) for the
corresponding search hit; and a stored vector identical to the query
vector has distance 0 and relevance_score 1. The distance bound below
fltMax corresponds to non-overflowing float distances. -/
theorem retrieve_sorted_by_relevance (emb : List Char → Vec) (s : RAGState)
    (db : List Vec) (q : List Char) (k : ℕ)
    (hidx : s.index = some db)
    (hdoc : s.documents.length = db.length)
    (hmeta : s.metadata.length = db.length)
    (hne : 0 < db.length)
    (hbound : ∀ v ∈ db, sqDist (emb q) v < fltMax) :
    ∃ res, retrieve emb s q k = .ok res ∧
      List.Sorted (fun a b : RetrievalResult =>
        b.relevance_score ≤ a.relevance_score) res ∧
      List.Sorted searchLE (faissSearch db (emb q) k) ∧
      (∀ r ∈ res, ∃ p ∈ faissSearch db (emb q) k,
        r.relevance_score = 1 / (1 + p.2)) ∧
      (∀ v ∈ db, v = emb q → sqDist (emb q) v = 0 ∧
        (1 : ℚ) / (1 + sqDist (emb q) v) = 1) := by
  have hall : ∀ p ∈ faissSearch db (emb q) k,
      ∃ r, hydrate s p = .ok (some r) ∧ r.relevance_score = 1 / (1 + p.2) := by
    intro p hp
    rcases mem_faissSearch db (emb q) k p hp with ⟨v, -, j, hpe, hj⟩ | hpe
    · subst hpe; exact hydrate_ok_genuine s db _ j hdoc hmeta hj
    · subst hpe; exact hydrate_ok_pad s db _ hdoc hmeta hne
  have hnn : ∀ p ∈ faissSearch db (emb q) k, 0 ≤ p.2 := by
    intro p hp
    rcases mem_faissSearch db (emb q) k p hp with ⟨v, -, j, hpe, -⟩ | hpe
    · subst hpe; exact sqDist_nonneg _ _
    · subst hpe; exact fltMax_pos.le
  have hsorted := hits_sorted db (emb q) k hbound
  have hret := retrieve_ok emb s db q k hidx
    (fun p hp => (hall p hp).imp (fun r hr => hr.1))
  refine ⟨_, hret, ?_, hsorted, ?_, ?_⟩
  · rw [List.Sorted, List.pairwise_map]
    apply hsorted.imp_of_mem
    intro a b ha hb hab
    obtain ⟨ra, hra, hsa⟩ := hall a ha
    obtain ⟨rb, hrb, hsb⟩ := hall b hb
    have hva : hydval s a = ra := by unfold hydval; rw [hra]
    have hvb : hydval s b = rb := by unfold hydval; rw [hrb]
    rw [hva, hvb, hsa, hsb]
    have h0a : 0 ≤ a.2 := hnn a ha
    have hab2 : a.2 ≤ b.2 := by
      rcases hab with h | ⟨h, -⟩
      · exact h.le
      · exact h.le
    exact one_div_le_one_div_of_le (by linarith) (by linarith)
  · intro r hr
    rw [List.mem_map] at hr
    obtain ⟨p, hp, hrp⟩ := hr
    obtain ⟨rp, hrp2, hsp⟩ := hall p hp
    have hvp : hydval s p = rp := by unfold hydval; rw [hrp2]
    exact ⟨p, hp, by rw [← hrp, hvp, hsp]⟩
  · intro v hv hveq
    have h0 : sqDist (emb q) v = 0 := by rw [hveq]; exact sqDist_self _
    refine ⟨h0, by rw [h0]; norm_num⟩

/-- C4 witness: the ordering theorem instantiated on a concrete
one-vector store. -/
theorem retrieve_sorted_by_relevance_witness :
    ∃ res, retrieve embLen oneStore ['a'] 1 = .ok res ∧
      List.Sorted (fun a b : RetrievalResult =>
        b.relevance_score ≤ a.relevance_score) res ∧
      List.Sorted searchLE (faissSearch [[1]] (embLen ['a']) 1) ∧
      (∀ r ∈ res, ∃ p ∈ faissSearch [[1]] (embLen ['a']) 1,
        r.relevance_score = 1 / (1 + p.2)) ∧
      (∀ v ∈ [[(1 : ℚ)]], v = embLen ['a'] → sqDist (embLen ['a']) v = 0 ∧
        (1 : ℚ) / (1 + sqDist (embLen ['a']) v) = 1) :=
  retrieve_sorted_by_relevance embLen oneStore [[1]] ['a'] 1 rfl rfl rfl
    (by norm_num)
    (by
      intro v hv
      rw [List.mem_singleton] at hv
      subst hv
      show sqDist [((['a'].length : ℕ) : ℚ)] [1] < fltMax
      simp [sqDist, fltMax]
      norm_num)

/-- C1 (failing input): on a built store holding exactly 2 vectors,
retrieve with top_k = 5 returns 5 results, not min(5, 2) = 2. FAISS pads
the 3 missing hits with position -1, the guard `idx < len(self.documents)`
accepts -1, and Python list indexing with -1 hydrates the last stored
chunk, so the padded hits are emitted as results. -/
theorem retrieve_topk_overrun_bug :
    (retrieve embLen twoStore ['a'] 5).map List.length = Except.ok 5 ∧
    (indexVecs twoStore).length = 2 ∧
    ¬ ((5 : ℕ) = min 5 (indexVecs twoStore).length) := by
  have hidx : twoStore.index = some (indexVecs twoStore) := rfl
  have hdoc : twoStore.documents.length = (indexVecs twoStore).length := rfl
  have hmeta : twoStore.metadata.length = (indexVecs twoStore).length := rfl
  have hlen2 : (indexVecs twoStore).length = 2 := rfl
  have hne : 0 < (indexVecs twoStore).length := by rw [hlen2]; norm_num
  have hall : ∀ p ∈ faissSearch (indexVecs twoStore) (embLen ['a']) 5,
      ∃ r, hydrate twoStore p = .ok (some r) := by
    intro p hp
    rcases mem_faissSearch _ _ _ p hp with ⟨v, -, j, hpe, hj⟩ | hpe
    · subst hpe
      exact (hydrate_ok_genuine twoStore _ _ j hdoc hmeta hj).imp fun r hr => hr.1
    · subst hpe
      exact (hydrate_ok_pad twoStore _ _ hdoc hmeta hne).imp fun r hr => hr.1
  have hret := retrieve_ok embLen twoStore (indexVecs twoStore) ['a'] 5 hidx hall
  refine ⟨?_, hlen2, by rw [hlen2]; norm_num⟩
  rw [hret]
  show Except.ok ((faissSearch (indexVecs twoStore) (embLen ['a']) 5).map
    (hydval twoStore)).length = Except.ok 5
  rw [List.length_map]
  unfold faissSearch
  rw [List.length_append, List.length_take, List.length_insertionSort,
    scoreAux_length, List.length_replicate, hlen2]
  norm_num
